import Mathlib

/-!
Verification of the async-reachability analyzer (`src/analyze.py`).

The program reads a call graph (edge list), a set of async-signature
symbols, and a list of textual entry-point references.  It resolves the
references to graph symbols (`bad_funcs`), unions them into the async
seed set (`async_funcs`), runs a worklist reachability pass recording a
predecessor for every newly reached symbol (`async_called`), intersects
the reached keys with the original entry set (`danger`) and walks the
predecessor map backwards to print one witness path per violation.

Symbols are strings.  All string manipulation from the source
(`split`, `replace`, `strip`, `endswith`, substring tests) is embedded
on `List Char` with structural recursion so that every definition is
kernel-computable.
-/

namespace Analyze

/-- Split a character list at the first occurrence of `sep`
(Python `s.split(sep, 1)` when it succeeds): `none` when `sep` does not
occur.  An empty `sep` matches immediately, as a prefix. -/
def findSplit (sep : List Char) : List Char → Option (List Char × List Char)
  | [] => if sep.isPrefixOf ([] : List Char) then some ([], []) else none
  | c :: cs =>
    if sep.isPrefixOf (c :: cs) then some ([], (c :: cs).drop sep.length)
    else (findSplit sep cs).map (fun p => (c :: p.1, p.2))

/-- Python `s.split(sep, 1)` restricted to the successful case:
the text before the first `sep` and the text after it. -/
def splitOnce (sep s : String) : Option (String × String) :=
  (findSplit sep.toList s.toList).map (fun p => (String.mk p.1, String.mk p.2))

/-- Left-to-right, non-overlapping replacement of `sep` by `repl`,
with explicit fuel (one unit per consumed character). -/
def replaceAllAux (sep repl : List Char) : Nat → List Char → List Char
  | 0, l => l
  | _ + 1, [] => []
  | fuel + 1, c :: cs =>
    if sep.isPrefixOf (c :: cs) && !sep.isEmpty then
      repl ++ replaceAllAux sep repl fuel ((c :: cs).drop sep.length)
    else
      c :: replaceAllAux sep repl fuel cs

/-- Python `s.replace(pat, repl)` (all occurrences, left to right). -/
def strReplace (s pat repl : String) : String :=
  String.mk (replaceAllAux pat.toList repl.toList s.toList.length s.toList)

/-- Python `s.endswith(sfx)`. -/
def strEndsWith (s sfx : String) : Bool :=
  sfx.toList.isSuffixOf s.toList

/-- Python `s.strip()`: remove leading and trailing whitespace. -/
def strStrip (s : String) : String :=
  String.mk (((s.toList.dropWhile Char.isWhitespace).reverse.dropWhile
    Char.isWhitespace).reverse)

/-- Python `sub in s`: substring containment. -/
def containsStr (s sub : String) : Bool :=
  (findSplit sub.toList s.toList).isSome

/-- `trim_symbol` from the source: `s.split(' ')[-1]`, the text after the
last space of `s` (the whole of `s` when it has no space). -/
def trim_symbol (s : String) : String :=
  String.mk ((s.toList.reverse.takeWhile (fun c => c ≠ ' ')).reverse)

/-- Python `s.split('(')[0]`: the text before the first `(`. -/
def beforeParen (s : String) : String :=
  String.mk (s.toList.takeWhile (fun c => c ≠ '('))

/-- The stem/function-name extraction of the source's entry loop
(lines 47-51): split the line at the first `-` into file name and rest,
normalize the stem (`src/` and `.rs` removed, trailing `/mod` removed),
and take the function name between `fn` and `(`.  `none` models the
`ValueError`/`IndexError` the Python raises on a malformed line. -/
def parseMain (mainLine : String) : Option (String × String) := do
  let (filename, rest) ← splitOnce "-" mainLine
  let stem0 := strReplace (strReplace filename "src/" "") ".rs" ""
  let stem := if strEndsWith stem0 "/mod" then
    String.mk (stem0.toList.dropLast.dropLast.dropLast.dropLast) else stem0
  let (_, rest2) ← splitOnce "fn" (strStrip rest)
  let funcName := beforeParen (strStrip rest2)
  some (stem, funcName)

/-- The symbol-match test of the source's node scan (lines 55-58):
the symbol contains `{stem}/impl#` and ends with `]{funcName}().`, or it
ends with `{stem}/{funcName}().`. -/
def nodeMatches (stem funcName symbol : String) : Bool :=
  (containsStr symbol (stem ++ "/impl#") &&
    strEndsWith symbol ("]" ++ funcName ++ "().")) ||
  strEndsWith symbol (stem ++ "/" ++ funcName ++ "().")

/-- The entry-resolution loop (lines 43-63).  Nodes are represented by
their `symbol` strings.  The result is the list of resolved symbols
(`bad_funcs`; the source keeps a set, membership is what matters) and
the list of `MISSED (stem, funcName)` diagnostics in input order.
`none` models the fatal exception on a malformed line. -/
def buildBad (nodes : List String) :
    List String → Option (List String × List (String × String))
  | [] => some ([], [])
  | m :: ms => do
    let (stem, funcName) ← parseMain m
    let (bad, missed) ← buildBad nodes ms
    match nodes.find? (fun sym => nodeMatches stem funcName sym) with
    | some sym => some (sym :: bad, missed)
    | none => some (bad, (stem, funcName) :: missed)

/-- `async_funcs.update(bad_funcs)` (line 83): the unioned seed set
`mustAsync ∪ blockingEntry`, as a list (membership is set union). -/
def async_funcs (asyncSigs badFuncs : List String) : List String :=
  asyncSigs ++ badFuncs

/-- The adjacency mapping `sgraph` (lines 85-87):
`sgraph.setdefault(edge["source"], []).append(edge["target"])` makes the
value at `s` the list of targets of the edges whose source is `s`, in
input order (duplicates retained); `sgraph.get(s, ())` is `[]` for a
symbol with no outgoing edge. -/
def sgraph (edges : List (String × String)) (s : String) : List String :=
  (edges.filter (fun e => e.1 == s)).map (fun e => e.2)

/-- Key set of the predecessor map (`async_called.keys()`). -/
def keys (m : List (String × String)) : List String :=
  m.map Prod.fst

/-- One popped symbol's inner loop (lines 97-102): for each target `t`
of `s`, record `predecessor[t] = s` and push `t` when `t` has no
predecessor yet.  Modelled from the spec: the first test skips a target
whose trimmed display form is in the Exemption Set (spec section 4.4);
this check is absent from `src/analyze.py`, whose behaviour is the
instance `exempt = []`.  The worklist top is at the head (Python appends
to and pops from the tail); `log` records every enqueue. -/
def procT (exempt : List String) (s : String) :
    List String → List (String × String) → List String → List String →
      List (String × String) × List String × List String
  | [], m, wl, log => (m, wl, log)
  | t :: ts, m, wl, log =>
    if trim_symbol t ∈ exempt then procT exempt s ts m wl log
    else if t ∈ keys m then procT exempt s ts m wl log
    else procT exempt s ts (m ++ [(t, s)]) (t :: wl) (log ++ [t])

/-- The worklist loop (lines 93-102), fuelled: pop a symbol, process its
targets, recurse.  `none` only when the fuel runs out with a non-empty
worklist; `engineFuel` below always suffices. -/
def wlLoopE (edges : List (String × String)) (exempt : List String) :
    Nat → List (String × String) → List String → List String →
      Option (List (String × String) × List String)
  | _, m, [], log => some (m, log)
  | 0, _, _ :: _, _ => none
  | fuel + 1, m, s :: rest, log =>
    let r := procT exempt s (sgraph edges s) m rest log
    wlLoopE edges exempt fuel r.1 r.2.1 r.2.2

/-- The distinct targets occurring in the edge list: every recorded key
comes from here, which bounds the work left. -/
def targetUniv (edges : List (String × String)) : List String :=
  (edges.map Prod.snd).dedup

/-- Fuel that always completes the worklist loop started on `seeds`. -/
def engineFuel (edges : List (String × String)) (seeds : List String) : Nat :=
  2 * (targetUniv edges).length + seeds.length

/-- The engine run from the seed list with the always-sufficient fuel:
initial predecessor map empty, initial worklist (and enqueue log) the
seed list. -/
def engineRun (edges : List (String × String)) (exempt seeds : List String) :
    Option (List (String × String) × List String) :=
  wlLoopE edges exempt (engineFuel edges seeds) [] seeds seeds

/-- The predecessor map `async_called` computed by the engine with the
Exemption Set `exempt` (spec section 4.4). -/
def asyncCalledE (edges : List (String × String)) (exempt seeds : List String) :
    List (String × String) :=
  ((engineRun edges exempt seeds).getD ([], seeds)).1

/-- The full enqueue history of the engine run: the initial worklist
(the seeds) followed by every symbol appended by the loop body. -/
def enqueueLogE (edges : List (String × String)) (exempt seeds : List String) :
    List String :=
  ((engineRun edges exempt seeds).getD ([], seeds)).2

/-- `async_called` exactly as in `src/analyze.py` (lines 93-102), which
has no exemption check: the engine with the empty Exemption Set. -/
def async_called (edges : List (String × String)) (seeds : List String) :
    List (String × String) :=
  asyncCalledE edges [] seeds

/-- The enqueue history of the source engine. -/
def enqueueLog (edges : List (String × String)) (seeds : List String) :
    List String :=
  enqueueLogE edges [] seeds

/-- The reporter's backward walk (lines 116-120), fuelled:
`path = [bad]; while n in async_called: n = async_called[n];
path.append(n)`.  `some path` when the Python loop terminates within
`fuel` steps with that final `path`; `none` when it does not. -/
def walk (m : List (String × String)) :
    Nat → String → List String → Option (List String)
  | 0, n, path =>
    match List.lookup n m with
    | none => some path
    | some _ => none
  | fuel + 1, n, path =>
    match List.lookup n m with
    | none => some path
    | some p => walk m fuel p (path ++ [p])

/-- `danger = async_called.keys() & bad_funcs` (line 109): the reached
keys that are original blocking entries (membership is what matters;
the source keeps a set and sorts it only for printing). -/
def dangerList (edges : List (String × String))
    (asyncSigs badFuncs : List String) : List String :=
  (keys (async_called edges (async_funcs asyncSigs badFuncs))).filter
    (fun x => x ∈ badFuncs)

/-- Reachability through the call graph: `ReachVia edges P seeds t`
holds exactly when there is a finite non-empty chain of edges
`s₀ → s₁ → ⋯ → sₖ` with `s₀ ∈ seeds`, `sₖ = t` and `P sᵢ` for every
target `sᵢ` (`1 ≤ i ≤ k`) of the chain. -/
inductive ReachVia (edges : List (String × String)) (P : String → Prop)
    (seeds : List String) : String → Prop
  | base {s t : String} : s ∈ seeds → (s, t) ∈ edges → P t →
      ReachVia edges P seeds t
  | step {s t : String} : ReachVia edges P seeds s → (s, t) ∈ edges → P t →
      ReachVia edges P seeds t

/-- The target filter induced by an Exemption Set: the trimmed display
form of the target is not exempted. -/
def exemptOk (exempt : List String) (t : String) : Prop :=
  trim_symbol t ∉ exempt

/-- One backward step through the predecessor map: `predRel m a b` holds
when `b` is the recorded predecessor of `a`. -/
def predRel (m : List (String × String)) (a b : String) : Prop :=
  (a, b) ∈ m

-- Sanity checks on concrete inputs (spec section 8 scenarios).
example : async_called [("A", "B")] ["A"] = [("B", "A")] := by decide
example : async_called [("A", "B"), ("B", "A")] ["A", "B"] =
    [("B", "A"), ("A", "B")] := by decide
example : async_called [("A", "A")] ["A"] = [("A", "A")] := by decide
example : asyncCalledE [("A", "X"), ("X", "B")] ["X"] ["A"] = [] := by decide
example : dangerList [("A", "B"), ("B", "A")] ["B"] ["A"] = ["A"] := by decide
example : walk [("B", "A")] 5 "B" ["B"] = some ["B", "A"] := by decide
example : parseMain "src/main.rs-fn main()" = some ("main", "main") := by
  decide
example : buildBad ["rust-analyzer cargo x/main/f()."]
    ["src/main.rs-fn f()"] =
    some (["rust-analyzer cargo x/main/f()."], []) := by decide
example : buildBad ["zzz"] ["x-fn g()"] = some ([], [("x", "g")]) := by decide

/-! ### Structure of the inner loop -/

theorem keys_append (m₁ m₂ : List (String × String)) :
    keys (m₁ ++ m₂) = keys m₁ ++ keys m₂ := by
  simp [keys]

theorem procT_spec (exempt : List String) (s : String) :
    ∀ (ts : List String) (m : List (String × String)) (wl log : List String),
      ∃ ks : List String,
        procT exempt s ts m wl log =
          (m ++ ks.map (fun t => (t, s)), ks.reverse ++ wl, log ++ ks) ∧
        ks.Nodup ∧
        (∀ t ∈ ks, t ∈ ts ∧ t ∉ keys m ∧ trim_symbol t ∉ exempt) ∧
        (∀ t ∈ ts, trim_symbol t ∉ exempt → t ∈ keys m ∨ t ∈ ks) := by
  intro ts
  induction ts with
  | nil =>
    intro m wl log
    exact ⟨[], by simp [procT], by simp, by simp, by simp⟩
  | cons t ts ih =>
    intro m wl log
    by_cases h1 : trim_symbol t ∈ exempt
    · obtain ⟨ks, heq, hnd, helem, hcomp⟩ := ih m wl log
      refine ⟨ks, by simpa [procT, h1] using heq, hnd, ?_, ?_⟩
      · intro u hu
        obtain ⟨h2, h3, h4⟩ := helem u hu
        exact ⟨List.mem_cons_of_mem _ h2, h3, h4⟩
      · intro u hu hok
        rcases List.mem_cons.mp hu with rfl | hu'
        · exact absurd h1 hok
        · exact hcomp u hu' hok
    · by_cases h2 : t ∈ keys m
      · obtain ⟨ks, heq, hnd, helem, hcomp⟩ := ih m wl log
        refine ⟨ks, by simpa [procT, h1, h2] using heq, hnd, ?_, ?_⟩
        · intro u hu
          obtain ⟨h3, h4, h5⟩ := helem u hu
          exact ⟨List.mem_cons_of_mem _ h3, h4, h5⟩
        · intro u hu hok
          rcases List.mem_cons.mp hu with rfl | hu'
          · exact Or.inl h2
          · exact hcomp u hu' hok
      · obtain ⟨ks, heq, hnd, helem, hcomp⟩ := ih (m ++ [(t, s)]) (t :: wl) (log ++ [t])
        have hknotin : t ∉ ks := by
          intro hmem
          have := (helem t hmem).2.1
          simp [keys_append, keys] at this
        refine ⟨t :: ks, ?_, ?_, ?_, ?_⟩
        · have : procT exempt s (t :: ts) m wl log =
            procT exempt s ts (m ++ [(t, s)]) (t :: wl) (log ++ [t]) := by
            simp [procT, h1, h2]
          rw [this, heq]
          refine congrArg₂ _ ?_ (congrArg₂ _ ?_ ?_)
          · simp
          · simp
          · simp
        · exact List.nodup_cons.mpr ⟨hknotin, hnd⟩
        · intro u hu
          rcases List.mem_cons.mp hu with rfl | hu'
          · exact ⟨List.mem_cons_self _ _, h2, h1⟩
          · obtain ⟨h3, h4, h5⟩ := helem u hu'
            have h4' : u ∉ keys m := by
              intro hc
              exact h4 (by simp [keys_append, hc])
            exact ⟨List.mem_cons_of_mem _ h3, h4', h5⟩
        · intro u hu hok
          rcases List.mem_cons.mp hu with rfl | hu'
          · exact Or.inr (List.mem_cons_self _ _)
          · rcases hcomp u hu' hok with hk | hk
            · rw [keys_append] at hk
              rcases List.mem_append.mp hk with hk' | hk'
              · exact Or.inl hk'
              · simp [keys] at hk'
                exact Or.inr (by simp [hk'])
            · exact Or.inr (List.mem_cons_of_mem _ hk)

/-! ### Structure of the worklist loop -/

theorem mem_sgraph {edges : List (String × String)} {s t : String} :
    t ∈ sgraph edges s ↔ (s, t) ∈ edges := by
  simp only [sgraph, List.mem_map, List.mem_filter, beq_iff_eq]
  constructor
  · rintro ⟨⟨a, b⟩, ⟨hmem, h1⟩, h2⟩
    subst h1; subst h2
    exact hmem
  · intro h
    exact ⟨(s, t), ⟨h, rfl⟩, rfl⟩

/-- Each completed run only extends the map, and logs exactly the new
keys. -/
theorem wlLoopE_delta (edges : List (String × String)) (exempt : List String) :
    ∀ (fuel : Nat) (m : List (String × String)) (wl log : List String)
      (m' : List (String × String)) (log' : List String),
      wlLoopE edges exempt fuel m wl log = some (m', log') →
      ∃ Δ, m' = m ++ Δ ∧ log' = log ++ keys Δ := by
  intro fuel
  induction fuel with
  | zero =>
    intro m wl log m' log' h
    cases wl with
    | nil =>
      simp only [wlLoopE, Option.some.injEq, Prod.mk.injEq] at h
      exact ⟨[], by simp [h.1.symm, h.2.symm, keys]⟩
    | cons s rest => simp [wlLoopE] at h
  | succ f ih =>
    intro m wl log m' log' h
    cases wl with
    | nil =>
      simp only [wlLoopE, Option.some.injEq, Prod.mk.injEq] at h
      exact ⟨[], by simp [h.1.symm, h.2.symm, keys]⟩
    | cons s rest =>
      simp only [wlLoopE] at h
      obtain ⟨ks, heq, hnd, helem, hcomp⟩ :=
        procT_spec exempt s (sgraph edges s) m rest log
      rw [heq] at h
      obtain ⟨Δ', hm, hl⟩ := ih _ _ _ _ _ h
      refine ⟨ks.map (fun t => (t, s)) ++ Δ', by rw [hm, List.append_assoc], ?_⟩
      rw [hl, keys_append, List.append_assoc]
      congr 1
      simp [keys, Function.comp_def]

/-- Preserved invariant: every recorded entry `(t, s)` is a real edge
`(s, t)` whose target passed the exemption test. -/
theorem wlLoopE_entries (edges : List (String × String)) (exempt : List String) :
    ∀ (fuel : Nat) (m : List (String × String)) (wl log : List String)
      (m' : List (String × String)) (log' : List String),
      wlLoopE edges exempt fuel m wl log = some (m', log') →
      (∀ p ∈ m, (p.2, p.1) ∈ edges ∧ trim_symbol p.1 ∉ exempt) →
      ∀ p ∈ m', (p.2, p.1) ∈ edges ∧ trim_symbol p.1 ∉ exempt := by
  intro fuel
  induction fuel with
  | zero =>
    intro m wl log m' log' h hm
    cases wl with
    | nil =>
      simp only [wlLoopE, Option.some.injEq, Prod.mk.injEq] at h
      rw [← h.1]
      exact hm
    | cons s rest => simp [wlLoopE] at h
  | succ f ih =>
    intro m wl log m' log' h hm
    cases wl with
    | nil =>
      simp only [wlLoopE, Option.some.injEq, Prod.mk.injEq] at h
      rw [← h.1]
      exact hm
    | cons s rest =>
      simp only [wlLoopE] at h
      obtain ⟨ks, heq, hnd, helem, hcomp⟩ :=
        procT_spec exempt s (sgraph edges s) m rest log
      rw [heq] at h
      refine ih _ _ _ _ _ h ?_
      intro p hp
      rcases List.mem_append.mp hp with hp' | hp'
      · exact hm p hp'
      · obtain ⟨t, ht, rfl⟩ := List.mem_map.mp hp'
        obtain ⟨h1, _, h3⟩ := helem t ht
        exact ⟨mem_sgraph.mp h1, h3⟩

/-- Preserved invariant: the recorded keys are pairwise distinct. -/
theorem wlLoopE_nodup (edges : List (String × String)) (exempt : List String) :
    ∀ (fuel : Nat) (m : List (String × String)) (wl log : List String)
      (m' : List (String × String)) (log' : List String),
      wlLoopE edges exempt fuel m wl log = some (m', log') →
      (keys m).Nodup → (keys m').Nodup := by
  intro fuel
  induction fuel with
  | zero =>
    intro m wl log m' log' h hm
    cases wl with
    | nil =>
      simp only [wlLoopE, Option.some.injEq, Prod.mk.injEq] at h
      rw [← h.1]
      exact hm
    | cons s rest => simp [wlLoopE] at h
  | succ f ih =>
    intro m wl log m' log' h hm
    cases wl with
    | nil =>
      simp only [wlLoopE, Option.some.injEq, Prod.mk.injEq] at h
      rw [← h.1]
      exact hm
    | cons s rest =>
      simp only [wlLoopE] at h
      obtain ⟨ks, heq, hnd, helem, hcomp⟩ :=
        procT_spec exempt s (sgraph edges s) m rest log
      rw [heq] at h
      refine ih _ _ _ _ _ h ?_
      rw [keys_append]
      have hks : keys (ks.map (fun t => (t, s))) = ks := by
        simp [keys, Function.comp_def]
      rw [hks]
      exact hm.append hnd (fun a ha hb => ((helem a hb).2.1 ha).elim)

/-- Preserved invariant: every recorded key is reachable from the seeds
by a non-empty chain of edges whose targets all pass the exemption
test. -/
theorem wlLoopE_sound (edges : List (String × String))
    (exempt seeds : List String) :
    ∀ (fuel : Nat) (m : List (String × String)) (wl log : List String)
      (m' : List (String × String)) (log' : List String),
      wlLoopE edges exempt fuel m wl log = some (m', log') →
      (∀ x ∈ keys m, ReachVia edges (exemptOk exempt) seeds x) →
      (∀ x ∈ wl, x ∈ seeds ∨ ReachVia edges (exemptOk exempt) seeds x) →
      ∀ x ∈ keys m', ReachVia edges (exemptOk exempt) seeds x := by
  intro fuel
  induction fuel with
  | zero =>
    intro m wl log m' log' h hm hwl
    cases wl with
    | nil =>
      simp only [wlLoopE, Option.some.injEq, Prod.mk.injEq] at h
      rw [← h.1]
      exact hm
    | cons s rest => simp [wlLoopE] at h
  | succ f ih =>
    intro m wl log m' log' h hm hwl
    cases wl with
    | nil =>
      simp only [wlLoopE, Option.some.injEq, Prod.mk.injEq] at h
      rw [← h.1]
      exact hm
    | cons s rest =>
      simp only [wlLoopE] at h
      obtain ⟨ks, heq, hnd, helem, hcomp⟩ :=
        procT_spec exempt s (sgraph edges s) m rest log
      rw [heq] at h
      have hs := hwl s (List.mem_cons_self _ _)
      have hks : ∀ t ∈ ks, ReachVia edges (exemptOk exempt) seeds t := by
        intro t ht
        obtain ⟨h1, _, h3⟩ := helem t ht
        have hedge := mem_sgraph.mp h1
        rcases hs with hseed | hreach
        · exact ReachVia.base hseed hedge h3
        · exact ReachVia.step hreach hedge h3
      refine ih _ _ _ _ _ h ?_ ?_
      · intro x hx
        rw [keys_append] at hx
        rcases List.mem_append.mp hx with hx' | hx'
        · exact hm x hx'
        · have : x ∈ ks := by simpa [keys, Function.comp_def] using hx'
          exact hks x this
      · intro x hx
        rcases List.mem_append.mp hx with hx' | hx'
        · exact Or.inr (hks x (List.mem_reverse.mp hx'))
        · exact hwl x (List.mem_cons_of_mem _ hx')

/-- Preserved invariant leading to the fixed point: at the end, every
seed or key has all its non-exempted targets recorded. -/
theorem wlLoopE_sat (edges : List (String × String))
    (exempt seeds : List String) :
    ∀ (fuel : Nat) (m : List (String × String)) (wl log : List String)
      (m' : List (String × String)) (log' : List String),
      wlLoopE edges exempt fuel m wl log = some (m', log') →
      (∀ x, (x ∈ seeds ∨ x ∈ keys m) → x ∈ wl ∨
        ∀ t ∈ sgraph edges x, trim_symbol t ∉ exempt → t ∈ keys m) →
      ∀ x, (x ∈ seeds ∨ x ∈ keys m') →
        ∀ t ∈ sgraph edges x, trim_symbol t ∉ exempt → t ∈ keys m' := by
  intro fuel
  induction fuel with
  | zero =>
    intro m wl log m' log' h hinv
    cases wl with
    | nil =>
      simp only [wlLoopE, Option.some.injEq, Prod.mk.injEq] at h
      rw [← h.1]
      intro x hx t ht hok
      rcases hinv x hx with hc | hsat
      · exact absurd hc (List.not_mem_nil x)
      · exact hsat t ht hok
    | cons s rest => simp [wlLoopE] at h
  | succ f ih =>
    intro m wl log m' log' h hinv
    cases wl with
    | nil =>
      simp only [wlLoopE, Option.some.injEq, Prod.mk.injEq] at h
      rw [← h.1]
      intro x hx t ht hok
      rcases hinv x hx with hc | hsat
      · exact absurd hc (List.not_mem_nil x)
      · exact hsat t ht hok
    | cons s rest =>
      simp only [wlLoopE] at h
      obtain ⟨ks, heq, hnd, helem, hcomp⟩ :=
        procT_spec exempt s (sgraph edges s) m rest log
      rw [heq] at h
      have hkeys : keys (m ++ ks.map (fun t => (t, s))) = keys m ++ ks := by
        rw [keys_append]
        simp [keys, Function.comp_def]
      refine ih _ _ _ _ _ h ?_
      intro x hx
      rw [hkeys] at hx ⊢
      rcases hx with hx | hx
      · rcases hinv x (Or.inl hx) with hc | hsat
        · rcases List.mem_cons.mp hc with rfl | hc'
          · refine Or.inr ?_
            intro t ht hok
            rcases hcomp t ht hok with h' | h'
            · exact List.mem_append.mpr (Or.inl h')
            · exact List.mem_append.mpr (Or.inr h')
          · exact Or.inl (List.mem_append.mpr (Or.inr hc'))
        · refine Or.inr ?_
          intro t ht hok
          exact List.mem_append.mpr (Or.inl (hsat t ht hok))
      · rcases List.mem_append.mp hx with hx' | hx'
        · rcases hinv x (Or.inr hx') with hc | hsat
          · rcases List.mem_cons.mp hc with rfl | hc'
            · refine Or.inr ?_
              intro t ht hok
              rcases hcomp t ht hok with h' | h'
              · exact List.mem_append.mpr (Or.inl h')
              · exact List.mem_append.mpr (Or.inr h')
            · exact Or.inl (List.mem_append.mpr (Or.inr hc'))
          · refine Or.inr ?_
            intro t ht hok
            exact List.mem_append.mpr (Or.inl (hsat t ht hok))
        · exact Or.inl (List.mem_append.mpr (Or.inl (List.mem_reverse.mpr hx')))

/-- Where an element of an appended list sits: in the left part, or in
the right part with the left part absorbed into the prefix. -/
theorem split_of_append {α : Type} {l Δ a b : List α} {x : α}
    (h : l ++ Δ = a ++ x :: b) :
    (∃ b', l = a ++ x :: b') ∨ (∃ a₁ b₂, Δ = a₁ ++ x :: b₂ ∧ a = l ++ a₁) := by
  induction l generalizing a with
  | nil =>
    right
    exact ⟨a, b, by simpa using h, by simp⟩
  | cons y l' ih =>
    cases a with
    | nil =>
      simp only [List.nil_append, List.cons_append, List.cons.injEq] at h
      left
      exact ⟨l', by simp [h.1]⟩
    | cons z a' =>
      simp only [List.cons_append, List.cons.injEq] at h
      rcases ih h.2 with ⟨b', hb⟩ | ⟨a₁, b₂, hΔ, ha⟩
      · left
        exact ⟨b', by simp [h.1, hb]⟩
      · right
        exact ⟨a₁, b₂, hΔ, by simp [h.1, ha]⟩

/-- The order invariant of the map: the predecessor of every entry is a
seed or was itself recorded strictly earlier. -/
def GoodM (seeds : List String) (m : List (String × String)) : Prop :=
  ∀ (m₁ : List (String × String)) (t s : String) (m₂ : List (String × String)),
    m = m₁ ++ (t, s) :: m₂ → s ∈ seeds ∨ s ∈ keys m₁

/-- Preserved invariant: `GoodM` holds throughout the run. -/
theorem wlLoopE_good (edges : List (String × String))
    (exempt seeds : List String) :
    ∀ (fuel : Nat) (m : List (String × String)) (wl log : List String)
      (m' : List (String × String)) (log' : List String),
      wlLoopE edges exempt fuel m wl log = some (m', log') →
      GoodM seeds m →
      (∀ x ∈ wl, x ∈ seeds ∨ x ∈ keys m) →
      GoodM seeds m' := by
  intro fuel
  induction fuel with
  | zero =>
    intro m wl log m' log' h hg hwl
    cases wl with
    | nil =>
      simp only [wlLoopE, Option.some.injEq, Prod.mk.injEq] at h
      rw [← h.1]
      exact hg
    | cons s rest => simp [wlLoopE] at h
  | succ f ih =>
    intro m wl log m' log' h hg hwl
    cases wl with
    | nil =>
      simp only [wlLoopE, Option.some.injEq, Prod.mk.injEq] at h
      rw [← h.1]
      exact hg
    | cons s rest =>
      simp only [wlLoopE] at h
      obtain ⟨ks, heq, hnd, helem, hcomp⟩ :=
        procT_spec exempt s (sgraph edges s) m rest log
      rw [heq] at h
      have hs := hwl s (List.mem_cons_self _ _)
      have hkeys : keys (m ++ ks.map (fun t => (t, s))) = keys m ++ ks := by
        rw [keys_append]
        simp [keys, Function.comp_def]
      refine ih _ _ _ _ _ h ?_ ?_
      · intro m₁ t s' m₂ hsplit
        rcases split_of_append hsplit with ⟨b', hb⟩ | ⟨a₁, b₂, hΔ, ha⟩
        · exact hg m₁ t s' b' hb
        · have : (t, s') ∈ ks.map (fun t => (t, s)) := by
            rw [hΔ]
            exact List.mem_append.mpr (Or.inr (List.mem_cons_self _ _))
          obtain ⟨u, _, hu⟩ := List.mem_map.mp this
          have hs' : s' = s := (Prod.mk.injEq _ _ _ _ ▸ hu).2.symm ▸ rfl
          have hs'' : s' = s := by
            cases hu
            rfl
          subst hs''
          rcases hs with hseed | hkey
          · exact Or.inl hseed
          · refine Or.inr ?_
            rw [ha, keys_append]
            exact List.mem_append.mpr (Or.inl hkey)
      · intro x hx
        rw [hkeys]
        rcases List.mem_append.mp hx with hx' | hx'
        · exact Or.inr (List.mem_append.mpr (Or.inr (List.mem_reverse.mp hx')))
        · rcases hwl x (List.mem_cons_of_mem _ hx') with h' | h'
          · exact Or.inl h'
          · exact Or.inr (List.mem_append.mpr (Or.inl h'))

/-- The loop completes whenever the fuel covers twice the unrecorded
targets plus the worklist length. -/
theorem wlLoopE_isSome (edges : List (String × String)) (exempt : List String) :
    ∀ (fuel : Nat) (m : List (String × String)) (wl log : List String),
      2 * ((targetUniv edges).filter
        (fun t => !(t ∈ keys m : Bool))).length + wl.length ≤ fuel →
      (wlLoopE edges exempt fuel m wl log).isSome := by
  intro fuel
  induction fuel with
  | zero =>
    intro m wl log hfuel
    have : wl = [] := List.length_eq_zero.mp (by omega)
    subst this
    simp [wlLoopE]
  | succ f ih =>
    intro m wl log hfuel
    cases wl with
    | nil => simp [wlLoopE]
    | cons s rest =>
      simp only [wlLoopE]
      obtain ⟨ks, heq, hnd, helem, hcomp⟩ :=
        procT_spec exempt s (sgraph edges s) m rest log
      rw [heq]
      set A := (targetUniv edges).filter (fun t => !(t ∈ keys m : Bool)) with hA
      have hAnd : A.Nodup := (List.nodup_dedup _).filter _
      have hksA : ∀ t ∈ ks, t ∈ A := by
        intro t ht
        obtain ⟨h1, h2, _⟩ := helem t ht
        have : t ∈ targetUniv edges := by
          rw [targetUniv, List.mem_dedup]
          exact List.mem_map.mpr ⟨(s, t), mem_sgraph.mp h1, rfl⟩
        simp [hA, List.mem_filter, this, h2]
      have hfilter : (targetUniv edges).filter
          (fun t => !(t ∈ keys (m ++ ks.map (fun t => (t, s))) : Bool)) =
          A.filter (fun t => !(t ∈ ks : Bool)) := by
        rw [hA, List.filter_filter]
        apply List.filter_congr
        intro t _
        have hk : keys (m ++ ks.map (fun t => (t, s))) = keys m ++ ks := by
          rw [keys_append]
          simp [keys, Function.comp_def]
        rw [hk]
        by_cases h1 : t ∈ keys m <;> by_cases h2 : t ∈ ks <;>
          simp [h1, h2, List.mem_append]
      have hperm := List.filter_append_perm (fun t => (t ∈ ks : Bool)) A
      have hlen : (A.filter (fun t => (t ∈ ks : Bool))).length +
          (A.filter (fun t => !(t ∈ ks : Bool))).length = A.length := by
        have := hperm.length_eq
        simpa using this
      have hkslen : ks.length ≤ (A.filter (fun t => (t ∈ ks : Bool))).length := by
        have hsub : ks ⊆ A.filter (fun t => (t ∈ ks : Bool)) := by
          intro t ht
          exact List.mem_filter.mpr ⟨hksA t ht, by simpa using ht⟩
        exact (hnd.subperm hsub).length_le
      refine ih _ _ _ ?_
      rw [hfilter]
      simp only [List.length_append, List.length_reverse, List.length_cons] at *
      omega

/-- The engine completes with the fuel `engineFuel`: the run is `some`
of the exported map and log. -/
theorem engineRun_eq (edges : List (String × String)) (exempt seeds : List String) :
    engineRun edges exempt seeds =
      some (asyncCalledE edges exempt seeds, enqueueLogE edges exempt seeds) := by
  have h := wlLoopE_isSome edges exempt (engineFuel edges seeds) [] seeds seeds ?_
  · obtain ⟨p, hp⟩ := Option.isSome_iff_exists.mp h
    have hrun : engineRun edges exempt seeds = some p := hp
    rw [hrun, asyncCalledE, enqueueLogE, hrun]
    rfl
  · have : (targetUniv edges).filter (fun t => !(t ∈ keys ([] :
        List (String × String)) : Bool)) = targetUniv edges := by
      apply List.filter_eq_self.mpr
      intro t _
      simp [keys]
    rw [this, engineFuel]

/-! ### Properties of the computed predecessor map -/

/-- Every entry `(t, s)` of the computed map is a real edge `(s, t)`
whose target passed the exemption test. -/
theorem asyncCalledE_entries (edges : List (String × String))
    (exempt seeds : List String) :
    ∀ p ∈ asyncCalledE edges exempt seeds,
      (p.2, p.1) ∈ edges ∧ trim_symbol p.1 ∉ exempt := by
  have h := engineRun_eq edges exempt seeds
  rw [engineRun] at h
  exact wlLoopE_entries edges exempt _ _ _ _ _ _ h (by simp)

/-- The computed map records each key once. -/
theorem asyncCalledE_nodup (edges : List (String × String))
    (exempt seeds : List String) :
    (keys (asyncCalledE edges exempt seeds)).Nodup := by
  have h := engineRun_eq edges exempt seeds
  rw [engineRun] at h
  exact wlLoopE_nodup edges exempt _ _ _ _ _ _ h (by simp [keys])

/-- The enqueue history is the seed list followed by the recorded keys
in recording order. -/
theorem enqueueLogE_eq (edges : List (String × String))
    (exempt seeds : List String) :
    enqueueLogE edges exempt seeds =
      seeds ++ keys (asyncCalledE edges exempt seeds) := by
  have h := engineRun_eq edges exempt seeds
  rw [engineRun] at h
  obtain ⟨Δ, hm, hl⟩ := wlLoopE_delta edges exempt _ _ _ _ _ _ h
  rw [hl, hm]
  simp

/-- Soundness: every recorded key is reachable from the seeds by a
non-empty chain of non-exempted edges. -/
theorem asyncCalledE_sound (edges : List (String × String))
    (exempt seeds : List String) :
    ∀ x ∈ keys (asyncCalledE edges exempt seeds),
      ReachVia edges (exemptOk exempt) seeds x := by
  have h := engineRun_eq edges exempt seeds
  rw [engineRun] at h
  exact wlLoopE_sound edges exempt seeds _ _ _ _ _ _ h
    (by simp [keys]) (fun x hx => Or.inl hx)

/-- Saturation: every seed or recorded key has all its non-exempted
direct targets recorded. -/
theorem asyncCalledE_sat (edges : List (String × String))
    (exempt seeds : List String) :
    ∀ x, (x ∈ seeds ∨ x ∈ keys (asyncCalledE edges exempt seeds)) →
      ∀ t ∈ sgraph edges x, trim_symbol t ∉ exempt →
        t ∈ keys (asyncCalledE edges exempt seeds) := by
  have h := engineRun_eq edges exempt seeds
  rw [engineRun] at h
  refine wlLoopE_sat edges exempt seeds _ _ _ _ _ _ h ?_
  intro x hx
  rcases hx with hx | hx
  · exact Or.inl hx
  · simp [keys] at hx

/-- Completeness: everything reachable from the seeds by a non-empty
chain of non-exempted edges is recorded. -/
theorem asyncCalledE_complete (edges : List (String × String))
    (exempt seeds : List String) :
    ∀ x, ReachVia edges (exemptOk exempt) seeds x →
      x ∈ keys (asyncCalledE edges exempt seeds) := by
  intro x hx
  induction hx with
  | base hseed hedge hok =>
    exact asyncCalledE_sat edges exempt seeds _ (Or.inl hseed) _
      (mem_sgraph.mpr hedge) hok
  | step _ hedge hok ih =>
    exact asyncCalledE_sat edges exempt seeds _ (Or.inr ih) _
      (mem_sgraph.mpr hedge) hok

/-- The order invariant holds for the computed map. -/
theorem asyncCalledE_good (edges : List (String × String))
    (exempt seeds : List String) :
    GoodM seeds (asyncCalledE edges exempt seeds) := by
  have h := engineRun_eq edges exempt seeds
  rw [engineRun] at h
  refine wlLoopE_good edges exempt seeds _ _ _ _ _ _ h ?_ (fun x hx => Or.inl hx)
  intro m₁ t s m₂ hsplit
  exact absurd hsplit (by simp)

/-! ### Generic helper lemmas -/

theorem lookup_mem {m : List (String × String)} {n p : String}
    (h : List.lookup n m = some p) : (n, p) ∈ m := by
  induction m with
  | nil => simp [List.lookup] at h
  | cons q m' ih =>
    obtain ⟨a, b⟩ := q
    by_cases hn : n = a
    · subst hn
      simp [List.lookup] at h
      simp [h]
    · have hb : (n == a) = false := by simpa using hn
      rw [show List.lookup n ((a, b) :: m') = List.lookup n m' from by
        simp [List.lookup, hb]] at h
      exact List.mem_cons_of_mem _ (ih h)

theorem lookup_eq_none {m : List (String × String)} {n : String}
    (h : n ∉ keys m) : List.lookup n m = none := by
  induction m with
  | nil => simp [List.lookup]
  | cons q m' ih =>
    obtain ⟨a, b⟩ := q
    have hna : n ≠ a := by
      intro hc
      exact h (by simp [keys, hc])
    have hb : (n == a) = false := by simpa using hna
    rw [show List.lookup n ((a, b) :: m') = List.lookup n m' from by
      simp [List.lookup, hb]]
    exact ih (fun hc => h (by simp [keys] at hc ⊢; exact Or.inr hc))

theorem mono_ReachVia {edges : List (String × String)} {P Q : String → Prop}
    {seeds : List String} (hPQ : ∀ t, P t → Q t) :
    ∀ {x}, ReachVia edges P seeds x → ReachVia edges Q seeds x := by
  intro x h
  induction h with
  | base hseed hedge hok => exact ReachVia.base hseed hedge (hPQ _ hok)
  | step _ hedge hok ih => exact ReachVia.step ih hedge (hPQ _ hok)

theorem ReachVia_dedup {edges : List (String × String)} {P : String → Prop}
    {seeds : List String} {x : String} :
    ReachVia edges.dedup P seeds x ↔ ReachVia edges P seeds x := by
  constructor
  · intro h
    induction h with
    | base hseed hedge hok =>
      exact ReachVia.base hseed (List.mem_dedup.mp hedge) hok
    | step _ hedge hok ih =>
      exact ReachVia.step ih (List.mem_dedup.mp hedge) hok
  · intro h
    induction h with
    | base hseed hedge hok =>
      exact ReachVia.base hseed (List.mem_dedup.mpr hedge) hok
    | step _ hedge hok ih =>
      exact ReachVia.step ih (List.mem_dedup.mpr hedge) hok

theorem indexOf_append_not_mem {l₁ : List String} {a : String}
    (h : a ∉ l₁) (l₂ : List String) :
    List.indexOf a (l₁ ++ l₂) = l₁.length + List.indexOf a l₂ := by
  induction l₁ with
  | nil => simp
  | cons b l ih =>
    have hab : b ≠ a := fun hc => h (by simp [hc])
    rw [List.cons_append, List.indexOf_cons_ne _ hab,
      ih (fun hc => h (List.mem_cons_of_mem _ hc))]
    simp [Nat.succ_eq_add_one]
    omega

/-! ### The reconstruction walk -/

/-- When the walk terminates, the final path extends the accumulator,
and every consecutive pair the walk appended is a predecessor-map
entry. -/
theorem walk_chain (m : List (String × String)) :
    ∀ (fuel : Nat) (n : String) (path out : List String),
      walk m fuel n path = some out →
      path.getLast? = some n →
      List.Chain' (fun a b => (a, b) ∈ m) path →
      List.Chain' (fun a b => (a, b) ∈ m) out := by
  intro fuel
  induction fuel with
  | zero =>
    intro n path out h hlast hchain
    cases hl : List.lookup n m with
    | none =>
      simp [walk, hl] at h
      rw [← h]
      exact hchain
    | some p => simp [walk, hl] at h
  | succ f ih =>
    intro n path out h hlast hchain
    cases hl : List.lookup n m with
    | none =>
      simp [walk, hl] at h
      rw [← h]
      exact hchain
    | some p =>
      simp only [walk, hl] at h
      refine ih p (path ++ [p]) out h (by simp) ?_
      rw [List.chain'_append]
      refine ⟨hchain, List.chain'_singleton p, ?_⟩
      intro x hx y hy
      simp at hy
      rw [hlast] at hx
      simp at hx
      subst hx
      subst hy
      exact lookup_mem hl

/-- A two-cycle in the predecessor map makes the walk spin forever:
no amount of fuel completes it. -/
theorem walk_two_cycle_none (m : List (String × String)) (x y : String)
    (hx : List.lookup x m = some y) (hy : List.lookup y m = some x) :
    ∀ (fuel : Nat) (path : List String), walk m fuel x path = none := by
  have key : ∀ fuel : Nat,
      (∀ path, walk m fuel x path = none) ∧
      (∀ path, walk m fuel y path = none) := by
    intro fuel
    induction fuel with
    | zero => exact ⟨fun path => by simp [walk, hx], fun path => by simp [walk, hy]⟩
    | succ f ih =>
      refine ⟨fun path => ?_, fun path => ?_⟩
      · simp only [walk, hx]
        exact ih.2 _
      · simp only [walk, hy]
        exact ih.1 _
  exact fun fuel => (key fuel).1

/-! ### Acyclicity of the map when no edge targets a seed -/

/-- With distinct keys and the order invariant, a predecessor that is a
key and not a seed was recorded strictly earlier. -/
theorem predRel_rank {m : List (String × String)} {seeds : List String}
    (hnd : (keys m).Nodup) (hgood : GoodM seeds m)
    (hns : ∀ x ∈ keys m, x ∉ seeds) :
    ∀ a b, predRel m a b → b ∈ keys m →
      List.indexOf b (keys m) < List.indexOf a (keys m) := by
  intro a b hab hbk
  obtain ⟨m₁, m₂, hm⟩ := List.append_of_mem hab
  have hsplit := hgood m₁ a b m₂ hm
  have hb1 : b ∈ keys m₁ := by
    rcases hsplit with h | h
    · exact absurd h (hns b hbk)
    · exact h
  have hkeys : keys m = keys m₁ ++ a :: keys m₂ := by
    rw [hm]
    simp [keys]
  have hanotm1 : a ∉ keys m₁ := by
    intro hc
    rw [hkeys] at hnd
    exact (List.disjoint_of_nodup_append hnd) hc (List.mem_cons_self _ _)
  rw [hkeys, List.indexOf_append_of_mem hb1,
    indexOf_append_not_mem hanotm1, List.indexOf_cons_self]
  have := List.indexOf_lt_length.mpr hb1
  omega

/-- No entry of such a map maps a symbol to itself. -/
theorem no_self_entry {m : List (String × String)} {seeds : List String}
    (hnd : (keys m).Nodup) (hgood : GoodM seeds m)
    (hns : ∀ x ∈ keys m, x ∉ seeds) :
    ∀ t s, (t, s) ∈ m → t ≠ s := by
  rintro t s hmem rfl
  obtain ⟨m₁, m₂, hm⟩ := List.append_of_mem hmem
  have htk : t ∈ keys m := List.mem_map.mpr ⟨(t, t), hmem, rfl⟩
  have hkeys : keys m = keys m₁ ++ t :: keys m₂ := by
    rw [hm]
    simp [keys]
  rcases hgood m₁ t t m₂ hm with h | h
  · exact hns t htk h
  · rw [hkeys] at hnd
    exact (List.disjoint_of_nodup_append hnd) h (List.mem_cons_self _ _)

/-- A transitive chain has a first step. -/
theorem transGen_first {α : Type} {r : α → α → Prop} {a b : α}
    (h : Relation.TransGen r a b) : ∃ c, r a c := by
  induction h using Relation.TransGen.head_induction_on with
  | base h => exact ⟨_, h⟩
  | ih h' _ _ => exact ⟨_, h'⟩

/-- The predecessor chains of such a map have no cycle. -/
theorem no_pred_cycle {m : List (String × String)} {seeds : List String}
    (hnd : (keys m).Nodup) (hgood : GoodM seeds m)
    (hns : ∀ x ∈ keys m, x ∉ seeds) :
    ∀ n, ¬ Relation.TransGen (predRel m) n n := by
  have hrank : ∀ a b, Relation.TransGen (predRel m) a b →
      b ∈ keys m → List.indexOf b (keys m) < List.indexOf a (keys m) := by
    intro a b h
    induction h with
    | single hab => exact predRel_rank hnd hgood hns _ _ hab
    | tail _ hcb ih =>
      intro hbk
      have hck : _ ∈ keys m := List.mem_map.mpr ⟨_, hcb, rfl⟩
      exact lt_trans (predRel_rank hnd hgood hns _ _ hcb hbk) (ih hck)
  intro n hn
  obtain ⟨c, hc⟩ := transGen_first hn
  have hnk : n ∈ keys m := List.mem_map.mpr ⟨(n, c), hc, rfl⟩
  exact absurd (hrank n n hn hnk) (lt_irrefl _)

/-! ### The entry-resolution loop is compositional -/

theorem buildBad_append (nodes : List String) :
    ∀ (xs ys : List String),
      buildBad nodes (xs ++ ys) =
        match buildBad nodes xs, buildBad nodes ys with
        | some (b₁, mi₁), some (b₂, mi₂) => some (b₁ ++ b₂, mi₁ ++ mi₂)
        | _, _ => none := by
  intro xs
  induction xs with
  | nil =>
    intro ys
    cases hys : buildBad nodes ys with
    | none => simp [buildBad, hys]
    | some r =>
      obtain ⟨b, mi⟩ := r
      simp [buildBad, hys]
  | cons m ms ih =>
    intro ys
    rw [List.cons_append]
    cases hp : parseMain m with
    | none =>
      simp [buildBad, hp]
    | some sf =>
      obtain ⟨stem, funcName⟩ := sf
      cases hms : buildBad nodes ms with
      | none =>
        have h1 : buildBad nodes (ms ++ ys) =
            match buildBad nodes ms, buildBad nodes ys with
            | some (b₁, mi₁), some (b₂, mi₂) => some (b₁ ++ b₂, mi₁ ++ mi₂)
            | _, _ => none := ih ys
        rw [hms] at h1
        cases hys : buildBad nodes ys with
        | none =>
          rw [hys] at h1
          simp [buildBad, hp, h1, hms]
        | some r =>
          obtain ⟨b₂, mi₂⟩ := r
          rw [hys] at h1
          simp [buildBad, hp, h1, hms]
      | some r =>
        obtain ⟨b₁, mi₁⟩ := r
        have h1 : buildBad nodes (ms ++ ys) =
            match buildBad nodes ms, buildBad nodes ys with
            | some (b₁, mi₁), some (b₂, mi₂) => some (b₁ ++ b₂, mi₁ ++ mi₂)
            | _, _ => none := ih ys
        rw [hms] at h1
        cases hys : buildBad nodes ys with
        | none =>
          rw [hys] at h1
          simp [buildBad, hp, h1, hms, hys]
        | some r' =>
          obtain ⟨b₂, mi₂⟩ := r'
          rw [hys] at h1
          cases hfind : nodes.find? (fun sym => nodeMatches stem funcName sym) with
          | none => simp [buildBad, hp, h1, hms, hys, hfind]
          | some sym => simp [buildBad, hp, h1, hms, hys, hfind]

/-- A reference that parses but matches no node resolves to nothing and
one diagnostic. -/
theorem buildBad_single_missed (nodes : List String) (r stem funcName : String)
    (hparse : parseMain r = some (stem, funcName))
    (hnomatch : ∀ sym ∈ nodes, nodeMatches stem funcName sym = false) :
    buildBad nodes [r] = some ([], [(stem, funcName)]) := by
  have hfind : nodes.find? (fun sym => nodeMatches stem funcName sym) = none := by
    rw [List.find?_eq_none]
    intro sym hsym
    simp [hnomatch sym hsym]
  simp [buildBad, hparse, hfind]

/-! ### The claims -/

/-- C1: for every call graph, exemption set and seed sets, a symbol is
a key of the predecessor map computed by the Reachability Engine
exactly when it is reachable from some symbol of the unioned seed set
`mustAsync ∪ blockingEntry` by a finite non-empty chain of call edges
none of whose targets is exempted (soundness and completeness of the
worklist fixed point). -/
theorem reached_iff_reachable_nonexempt
    (edges : List (String × String)) (exempt asyncSigs badFuncs : List String)
    (t : String) :
    t ∈ keys (asyncCalledE edges exempt (async_funcs asyncSigs badFuncs)) ↔
      ReachVia edges (exemptOk exempt) (async_funcs asyncSigs badFuncs) t := by
  constructor
  · exact asyncCalledE_sound edges exempt (async_funcs asyncSigs badFuncs) t
  · exact asyncCalledE_complete edges exempt (async_funcs asyncSigs badFuncs) t

/-- C2: an exempted symbol `E` is never recorded in the predecessor map
via an edge into it, and every symbol of the reached set is reachable
by a chain none of whose targets is `E` — so nothing that is only
reachable through `E` is reached. -/
theorem exempt_blocks_propagation
    (edges : List (String × String)) (exempt seeds : List String) (E : String)
    (hE : trim_symbol E ∈ exempt) :
    E ∉ keys (asyncCalledE edges exempt seeds) ∧
    ∀ x ∈ keys (asyncCalledE edges exempt seeds),
      ReachVia edges (fun t => t ≠ E) seeds x := by
  constructor
  · intro hc
    obtain ⟨p, hp, hfst⟩ := List.mem_map.mp hc
    have := (asyncCalledE_entries edges exempt seeds p hp).2
    rw [hfst] at this
    exact this hE
  · intro x hx
    refine mono_ReachVia ?_ (asyncCalledE_sound edges exempt seeds x hx)
    rintro t hok rfl
    exact hok hE

/-- C2 witness: the exempted-bridge scenario of spec section 8
(`A → X → B` with `X` exempted). -/
theorem exempt_blocks_propagation_witness :
    trim_symbol "X" ∈ ["X"] ∧
    ("X" ∉ keys (asyncCalledE [("A", "X"), ("X", "B")] ["X"] ["A"]) ∧
      ∀ x ∈ keys (asyncCalledE [("A", "X"), ("X", "B")] ["X"] ["A"]),
        ReachVia [("A", "X"), ("X", "B")] (fun t => t ≠ "X") ["A"] x) :=
  ⟨by decide,
    exempt_blocks_propagation [("A", "X"), ("X", "B")] ["X"] ["A"] "X" (by decide)⟩

/-- C3: on the two-seed cycle `A → B, B → A` with `mustAsync = {B}` and
`blockingEntry = {A}` (the scenario of spec section 8), `A` is a
violation, and the reporter's backward walk never terminates: the
predecessor map is `{A ↦ B, B ↦ A}` and the source loop
`while n in async_called` has no stop or cycle break.  The claimed
termination of witness-path reconstruction fails on the code. -/
theorem walk_diverges_on_seed_cycle :
    "A" ∈ dangerList [("A", "B"), ("B", "A")] ["B"] ["A"] ∧
    ∀ (fuel : Nat) (path : List String),
      walk (async_called [("A", "B"), ("B", "A")] (async_funcs ["B"] ["A"]))
        fuel "A" path = none := by
  constructor
  · decide
  · exact walk_two_cycle_none _ "A" "B" (by decide) (by decide)

/-- C4: the violation set is exactly the reached set intersected with
the original pre-union `blockingEntry` set: a symbol is flagged iff it
is an original blocking entry and is reachable from the unioned seed
set by a non-empty chain of edges; in particular a blocking entry that
is the target of no edge is never flagged. -/
theorem danger_is_reached_inter_original_entries
    (edges : List (String × String)) (asyncSigs badFuncs : List String)
    (x : String) :
    (x ∈ dangerList edges asyncSigs badFuncs ↔
      x ∈ badFuncs ∧
        ReachVia edges (fun _ => True) (async_funcs asyncSigs badFuncs) x) ∧
    (∀ b ∈ badFuncs, (∀ p ∈ edges, p.2 ≠ b) →
      b ∉ dangerList edges asyncSigs badFuncs) := by
  have hconv : ∀ y, y ∈ keys (async_called edges (async_funcs asyncSigs badFuncs)) ↔
      ReachVia edges (fun _ => True) (async_funcs asyncSigs badFuncs) y := by
    intro y
    constructor
    · intro h
      exact mono_ReachVia (fun t _ => trivial)
        (asyncCalledE_sound edges [] _ y h)
    · intro h
      refine asyncCalledE_complete edges [] _ y ?_
      exact mono_ReachVia (fun t _ => by simp [exemptOk]) h
  constructor
  · rw [dangerList, List.mem_filter]
    constructor
    · rintro ⟨hk, hb⟩
      exact ⟨by simpa using hb, (hconv x).mp hk⟩
    · rintro ⟨hb, hr⟩
      exact ⟨(hconv x).mpr hr, by simpa using hb⟩
  · intro b _ hnoedge hc
    rw [dangerList, List.mem_filter] at hc
    obtain ⟨p, hp, hfst⟩ := List.mem_map.mp hc.1
    have hedge := (asyncCalledE_entries edges [] _ p hp).1
    rw [hfst] at hedge
    exact hnoedge _ hedge rfl

/-- C5 counterexample: a self-loop on a seed records the self-entry
`A ↦ A`, and a two-edge cycle between two seeds produces a genuine
cycle in the predecessor chains — both under normal construction. -/
theorem self_entry_and_cycle_from_seed_edges :
    ("A", "A") ∈ async_called [("A", "A")] ["A"] ∧
    Relation.TransGen
      (predRel (async_called [("A", "B"), ("B", "A")] ["A", "B"])) "A" "A" := by
  constructor
  · decide
  · have h1 : predRel (async_called [("A", "B"), ("B", "A")] ["A", "B"])
        "A" "B" := by
      show ("A", "B") ∈ async_called [("A", "B"), ("B", "A")] ["A", "B"]
      decide
    have h2 : predRel (async_called [("A", "B"), ("B", "A")] ["A", "B"])
        "B" "A" := by
      show ("B", "A") ∈ async_called [("A", "B"), ("B", "A")] ["A", "B"]
      decide
    exact Relation.TransGen.head h1 (Relation.TransGen.single h2)

/-- C5 amended: when no call edge targets a seed symbol, the computed
predecessor map has no entry mapping a symbol to itself and its
predecessor chains contain no cycles.  (When edges do target seeds — a
self-loop on a seed, or a two-edge cycle between two seeds — self
entries and cycles do occur, as the counterexample shows.) -/
theorem no_self_entry_no_cycle_without_seed_targets
    (edges : List (String × String)) (seeds : List String)
    (hseeds : ∀ p ∈ edges, p.2 ∉ seeds) :
    (∀ t s, (t, s) ∈ async_called edges seeds → t ≠ s) ∧
    (∀ n, ¬ Relation.TransGen (predRel (async_called edges seeds)) n n) := by
  have hns : ∀ x ∈ keys (async_called edges seeds), x ∉ seeds := by
    intro x hx
    obtain ⟨p, hp, hfst⟩ := List.mem_map.mp hx
    have hedge := (asyncCalledE_entries edges [] seeds p hp).1
    rw [hfst] at hedge
    exact hseeds _ hedge
  have hnd := asyncCalledE_nodup edges [] seeds
  have hgood := asyncCalledE_good edges [] seeds
  exact ⟨no_self_entry hnd hgood hns, no_pred_cycle hnd hgood hns⟩

/-- C5 witness: a concrete graph in which no edge targets the seed. -/
theorem no_self_entry_no_cycle_witness :
    (∀ p ∈ [(("a" : String), ("b" : String))], p.2 ∉ ["s"]) ∧
    ((∀ t s, (t, s) ∈ async_called [("a", "b")] ["s"] → t ≠ s) ∧
      (∀ n, ¬ Relation.TransGen (predRel (async_called [("a", "b")] ["s"])) n n)) :=
  ⟨by decide, no_self_entry_no_cycle_without_seed_targets [("a", "b")] ["s"]
    (by decide)⟩

/-- C6 counterexample: a seed that is also the target of an edge is
enqueued twice — once at initialization and once by the loop body
(the guard only checks the predecessor map, which never contains the
seeds initially). -/
theorem seed_enqueued_twice :
    List.count "B" (enqueueLog [("A", "B")] (async_funcs ["A"] ["B"])) = 2 := by
  decide

/-- C6 amended: the loop body enqueues every symbol at most once (the
enqueue history is the seed list followed by the pairwise-distinct
recorded keys), so each symbol is enqueued at most once more than its
multiplicity in the initial seed list; a non-seed is enqueued at most
once, but a seed reached by an edge is enqueued twice. -/
theorem enqueue_log_structure (edges : List (String × String))
    (seeds : List String) :
    enqueueLog edges seeds = seeds ++ keys (async_called edges seeds) ∧
    (keys (async_called edges seeds)).Nodup ∧
    ∀ x, List.count x (enqueueLog edges seeds) ≤ List.count x seeds + 1 := by
  refine ⟨enqueueLogE_eq edges [] seeds, asyncCalledE_nodup edges [] seeds, ?_⟩
  intro x
  rw [show enqueueLog edges seeds = enqueueLogE edges [] seeds from rfl,
    enqueueLogE_eq edges [] seeds, List.count_append]
  have h := List.nodup_iff_count_le_one.mp (asyncCalledE_nodup edges [] seeds) x
  omega

/-- C7 counterexample: duplicate edges are not collapsed by the
adapter — the adjacency value keeps one occurrence per input edge. -/
theorem duplicate_edges_not_collapsed :
    sgraph [("a", "b"), ("a", "b")] "a" = ["b", "b"] := by
  decide

/-- C7 amended: the adapter maps each source symbol to the list of
targets of its edges in input order, retaining duplicate edges; as a
set it is exactly the directly-called symbols, and duplicate edges are
idempotent for the analysis: deduplicating the edge list leaves the
reached set unchanged. -/
theorem sgraph_membership_and_duplicate_idempotence
    (edges : List (String × String)) (s t : String) (seeds : List String)
    (x : String) :
    (t ∈ sgraph edges s ↔ (s, t) ∈ edges) ∧
    (x ∈ keys (async_called edges.dedup seeds) ↔
      x ∈ keys (async_called edges seeds)) := by
  refine ⟨mem_sgraph, ?_⟩
  constructor
  · intro h
    refine asyncCalledE_complete edges [] seeds x ?_
    exact ReachVia_dedup.mp (asyncCalledE_sound edges.dedup [] seeds x h)
  · intro h
    refine asyncCalledE_complete edges.dedup [] seeds x ?_
    exact ReachVia_dedup.mpr (asyncCalledE_sound edges [] seeds x h)

/-- C8: an entry reference that parses but matches no symbol of the
node set is non-fatal: the resolved entry set is unchanged, a MISSED
diagnostic naming its stem and function name is recorded, and the final
violation set is the same as if the reference were absent. -/
theorem unresolved_entry_nonfatal (nodes : List String)
    (r stem funcName : String) (ms₁ ms₂ : List String)
    (hparse : parseMain r = some (stem, funcName))
    (hnomatch : ∀ sym ∈ nodes, nodeMatches stem funcName sym = false) :
    ((buildBad nodes (ms₁ ++ r :: ms₂)).map Prod.fst =
      (buildBad nodes (ms₁ ++ ms₂)).map Prod.fst) ∧
    (∀ res, buildBad nodes (ms₁ ++ r :: ms₂) = some res →
      (stem, funcName) ∈ res.2) ∧
    (∀ (edges : List (String × String)) (asyncSigs : List String) res res',
      buildBad nodes (ms₁ ++ r :: ms₂) = some res →
      buildBad nodes (ms₁ ++ ms₂) = some res' →
      dangerList edges asyncSigs res.1 = dangerList edges asyncSigs res'.1) := by
  have hsingle := buildBad_single_missed nodes r stem funcName hparse hnomatch
  have hwith : buildBad nodes (ms₁ ++ r :: ms₂) =
      match buildBad nodes ms₁, buildBad nodes (r :: ms₂) with
      | some (b₁, mi₁), some (b₂, mi₂) => some (b₁ ++ b₂, mi₁ ++ mi₂)
      | _, _ => none := buildBad_append nodes ms₁ (r :: ms₂)
  have hr : buildBad nodes (r :: ms₂) =
      match buildBad nodes [r], buildBad nodes ms₂ with
      | some (b₁, mi₁), some (b₂, mi₂) => some (b₁ ++ b₂, mi₁ ++ mi₂)
      | _, _ => none := buildBad_append nodes [r] ms₂
  have hwout : buildBad nodes (ms₁ ++ ms₂) =
      match buildBad nodes ms₁, buildBad nodes ms₂ with
      | some (b₁, mi₁), some (b₂, mi₂) => some (b₁ ++ b₂, mi₁ ++ mi₂)
      | _, _ => none := buildBad_append nodes ms₁ ms₂
  rw [hsingle] at hr
  cases h1 : buildBad nodes ms₁ with
  | none =>
    rw [h1] at hwith hwout
    simp only at hwith hwout
    refine ⟨by rw [hwith, hwout], ?_, ?_⟩
    · intro res hres
      rw [hres] at hwith
      cases hwith
    · intro edges asyncSigs res res' hres hres'
      rw [hres] at hwith
      cases hwith
  | some p₁ =>
    obtain ⟨b₁, mi₁⟩ := p₁
    cases h2 : buildBad nodes ms₂ with
    | none =>
      rw [h2] at hr hwout
      rw [h1] at hwith hwout
      simp only at hr
      rw [hr] at hwith
      simp only at hwith hwout
      refine ⟨by rw [hwith, hwout], ?_, ?_⟩
      · intro res hres
        rw [hres] at hwith
        cases hwith
      · intro edges asyncSigs res res' hres hres'
        rw [hres] at hwith
        cases hwith
    | some p₂ =>
      obtain ⟨b₂, mi₂⟩ := p₂
      rw [h2] at hr hwout
      rw [h1] at hwith hwout
      simp only at hr
      rw [hr] at hwith
      simp only at hwith hwout
      refine ⟨by rw [hwith, hwout]; simp, ?_, ?_⟩
      · intro res hres
        rw [hres] at hwith
        cases hwith
        simp
      · intro edges asyncSigs res res' hres hres'
        rw [hres] at hwith
        rw [hres'] at hwout
        cases hwith
        cases hwout
        simp

/-- C8 witness: a parseable reference matching nothing in a one-node
graph. -/
theorem unresolved_entry_nonfatal_witness :
    (parseMain "x-fn g()" = some ("x", "g") ∧
      ∀ sym ∈ ["zzz"], nodeMatches "x" "g" sym = false) ∧
    (((buildBad ["zzz"] ([] ++ "x-fn g()" :: [])).map Prod.fst =
        (buildBad ["zzz"] ([] ++ [])).map Prod.fst) ∧
      (∀ res, buildBad ["zzz"] ([] ++ "x-fn g()" :: []) = some res →
        ("x", "g") ∈ res.2) ∧
      (∀ (edges : List (String × String)) (asyncSigs : List String) res res',
        buildBad ["zzz"] ([] ++ "x-fn g()" :: []) = some res →
        buildBad ["zzz"] ([] ++ []) = some res' →
        dangerList edges asyncSigs res.1 = dangerList edges asyncSigs res'.1)) :=
  ⟨⟨by decide, by decide⟩,
    unresolved_entry_nonfatal ["zzz"] "x-fn g()" "x" "g" [] [] (by decide)
      (by decide)⟩

/-- C9 counterexample: a seed that another seed calls becomes a key of
the predecessor map — the key set does not exclude the seeds. -/
theorem seed_reached_by_seed_is_key :
    "B" ∈ async_funcs ["A"] ["B"] ∧
    "B" ∈ keys (async_called [("A", "B")] (async_funcs ["A"] ["B"])) := by
  decide

/-- C9 amended: a member of the seed set that is the target of no call
edge never appears as a key of the predecessor map (a seed appears as a
key only when an edge from a reached or seed symbol targets it). -/
theorem untargeted_seed_never_key (edges : List (String × String))
    (seeds : List String) (x : String) (_hx : x ∈ seeds)
    (hnoedge : ∀ p ∈ edges, p.2 ≠ x) :
    x ∉ keys (async_called edges seeds) := by
  intro hc
  obtain ⟨p, hp, hfst⟩ := List.mem_map.mp hc
  have hedge := (asyncCalledE_entries edges [] seeds p hp).1
  rw [hfst] at hedge
  exact hnoedge _ hedge rfl

/-- C9 witness. -/
theorem untargeted_seed_never_key_witness :
    ("s" ∈ ["s", "a"] ∧ ∀ p ∈ [(("a" : String), ("b" : String))], p.2 ≠ "s") ∧
    "s" ∉ keys (async_called [("a", "b")] ["s", "a"]) :=
  ⟨⟨by decide, by decide⟩,
    untargeted_seed_never_key [("a", "b")] ["s", "a"] "s" (by decide) (by decide)⟩

/-- C10: every entry `t ↦ s` of the predecessor map corresponds to an
actual edge `(s, t)` of the input edge list, and consequently every
consecutive pair of symbols in any witness path the reporter walks is
connected by a real edge of the input call graph. -/
theorem pred_entries_are_edges_and_paths_valid
    (edges : List (String × String)) (seeds : List String) :
    (∀ t s, (t, s) ∈ async_called edges seeds → (s, t) ∈ edges) ∧
    (∀ (bad : String) (fuel : Nat) (path : List String),
      walk (async_called edges seeds) fuel bad [bad] = some path →
      List.Chain' (fun a b => (b, a) ∈ edges) path) := by
  have hent : ∀ t s, (t, s) ∈ async_called edges seeds → (s, t) ∈ edges := by
    intro t s h
    exact (asyncCalledE_entries edges [] seeds (t, s) h).1
  refine ⟨hent, ?_⟩
  intro bad fuel path hwalk
  have hchain := walk_chain (async_called edges seeds) fuel bad [bad] path hwalk
    (by simp) (List.chain'_singleton bad)
  exact hchain.imp (fun a b hab => hent a b hab)

end Analyze
